import Mathlib

/-!
Verification of the memory engine of the ai-overhaul repository.

This file gives a shallow embedding, in Lean 4, of the core memory-engine
operations of the repository (memgpt-service/memory/hierarchy.py,
retrieval.py, vector_store.py, utils/embedding.py, utils/__init__.py and
memory_processor.py) and proves or refutes the frozen claims about them.

Modelling conventions:
* numeric scores, importances and timestamps are rationals; timestamps are
  measured in days, so that the Python expression (now - created_at).days
  becomes the integer floor of a rational difference;
* the durable tables (memories, memory_embeddings, memory_hierarchies) are
  lists of rows inside a MemoryStore record, and each database statement
  (insert / update-where / delete-where / select-where) is translated to the
  corresponding list operation;
* Python dicts keyed by ids are association lists with insertion order, and
  dict updates keep the original position of an updated key, as Python does;
* coroutine fan-out (asyncio.gather) is modelled by evaluating both
  sub-searches and combining the two result lists, which the source awaits
  before using; completion order is irrelevant to the combined value.
-/

namespace MemEngine

/-! ## Generic stable descending sort (Python sorted with reverse=True) -/

/-- Insert an element into a list that is sorted by descending key, placing it
before the first element whose key is not larger, as a stable descending
insertion does. -/
def insertDescBy {α : Type} (key : α → ℚ) (x : α) : List α → List α
  | [] => [x]
  | y :: ys => if key x < key y then y :: insertDescBy key x ys else x :: y :: ys

/-- Stable descending sort by a rational key, modelling the Python call
sorted(xs, key, reverse=True). -/
def sortDescBy {α : Type} (key : α → ℚ) : List α → List α
  | [] => []
  | x :: xs => insertDescBy key x (sortDescBy key xs)

/-- A list is sorted non-increasingly by the given key. -/
abbrev SortedDescBy {α : Type} (key : α → ℚ) (l : List α) : Prop :=
  List.Pairwise (fun a b => key b ≤ key a) l

theorem mem_insertDescBy {α : Type} (key : α → ℚ) (x : α) (l : List α) (a : α) :
    a ∈ insertDescBy key x l ↔ a = x ∨ a ∈ l := by
  induction l with
  | nil => simp [insertDescBy]
  | cons y ys ih =>
      by_cases h : key x < key y
      · simp [insertDescBy, h, ih]
        tauto
      · simp [insertDescBy, h]

theorem length_insertDescBy {α : Type} (key : α → ℚ) (x : α) (l : List α) :
    (insertDescBy key x l).length = l.length + 1 := by
  induction l with
  | nil => rfl
  | cons y ys ih =>
      by_cases h : key x < key y
      · simp [insertDescBy, h, ih]
      · simp [insertDescBy, h]

theorem sorted_insertDescBy {α : Type} (key : α → ℚ) (x : α) (l : List α)
    (hl : SortedDescBy key l) : SortedDescBy key (insertDescBy key x l) := by
  induction l with
  | nil => simp [insertDescBy, SortedDescBy]
  | cons y ys ih =>
      rcases hl with _ | ⟨hy, hys⟩
      by_cases h : key x < key y
      · simp only [insertDescBy, if_pos h]
        refine List.Pairwise.cons ?_ (ih hys)
        intro b hb
        rcases (mem_insertDescBy key x ys b).mp hb with rfl | hb
        · exact le_of_lt h
        · exact hy b hb
      · simp only [insertDescBy, if_neg h]
        refine List.Pairwise.cons ?_ (List.Pairwise.cons hy hys)
        intro b hb
        rcases List.mem_cons.mp hb with rfl | hb
        · exact not_lt.mp h
        · exact le_trans (hy b hb) (not_lt.mp h)

theorem mem_sortDescBy {α : Type} (key : α → ℚ) (l : List α) (a : α) :
    a ∈ sortDescBy key l ↔ a ∈ l := by
  induction l with
  | nil => rfl
  | cons x xs ih =>
      simp [sortDescBy, mem_insertDescBy, ih]

theorem length_sortDescBy {α : Type} (key : α → ℚ) (l : List α) :
    (sortDescBy key l).length = l.length := by
  induction l with
  | nil => rfl
  | cons x xs ih => simp [sortDescBy, length_insertDescBy, ih]

theorem sorted_sortDescBy {α : Type} (key : α → ℚ) (l : List α) :
    SortedDescBy key (sortDescBy key l) := by
  induction l with
  | nil => exact List.Pairwise.nil
  | cons x xs ih => exact sorted_insertDescBy key x _ ih

theorem sortedDescBy_take {α : Type} (key : α → ℚ) (l : List α) (n : ℕ)
    (h : SortedDescBy key l) : SortedDescBy key (l.take n) :=
  List.Pairwise.sublist (List.take_sublist n l) h

/-! ## Data model

The memories table row (memory_processor.py builds rows with these columns;
hierarchy.py and retrieval.py read them).  The open key/value metadata map is
not modelled: no claim mentions it.  The column named type is rendered as
mtype because of the Lean field-name clash. -/

structure Memory where
  id : String
  mtype : String
  content : String
  importance : ℚ
  emotional_context : String
  associations : List String
  platform : String
  archive_status : String
  created_at : ℚ
deriving DecidableEq

/-- A row of the memory_hierarchies table (hierarchy.py add_memory_relationship
inserts exactly these four columns). -/
structure HierarchyEdge where
  parent_memory_id : String
  child_memory_id : String
  hierarchy_type : String
  relevance_score : ℚ
deriving DecidableEq

/-- The durable state shared by the memory engine: the three tables plus the
in-memory networkx digraph mirror kept by MemoryHierarchy (modelled as the set
of its directed edges, in insertion order). -/
structure MemoryStore where
  memories : List Memory
  embeddings : List (String × List ℚ)
  hierarchies : List HierarchyEdge
  graph : List (String × String)
deriving DecidableEq

/-! ## C1: MemoryHierarchy.add_memory_relationship (hierarchy.py lines 30-52) -/

/-- Shallow embedding of add_memory_relationship on the path where the durable
insert succeeds: the four-column edge row is appended to the
memory_hierarchies table and the edge is then added to the in-memory digraph
(networkx add_edge, idempotent on an existing pair).  The source performs no
cycle check, defines no ConsolidationConflict error, and inserts the edge
unconditionally once the durable write succeeds. -/
def add_memory_relationship (st : MemoryStore) (parent_id child_id : String)
    (hierarchy_type : String) (relevance_score : ℚ) : MemoryStore :=
  { st with
    hierarchies := st.hierarchies ++
      [⟨parent_id, child_id, hierarchy_type, relevance_score⟩],
    graph := if (parent_id, child_id) ∈ st.graph then st.graph
             else st.graph ++ [(parent_id, child_id)] }

theorem graph_mem_add (st : MemoryStore) (p c t : String) (s : ℚ) :
    (p, c) ∈ (add_memory_relationship st p c t s).graph := by
  simp only [add_memory_relationship]
  split <;> simp_all

theorem graph_mono_add (st : MemoryStore) (p c t : String) (s : ℚ)
    (x : String × String) (hx : x ∈ st.graph) :
    x ∈ (add_memory_relationship st p c t s).graph := by
  simp only [add_memory_relationship]
  split <;> simp_all

/-- C1 counterexample: the claim says add_edge(A,B) followed by add_edge(B,A)
fails the second call with ConsolidationConflict and leaves only the first
edge present.  On the code, starting from an empty store, both calls insert
their edge: the reverse edge B -> A is present in the durable table and the
table holds two edges, so the claim is false. -/
theorem c1_counterexample :
    let st0 : MemoryStore := ⟨[], [], [], []⟩
    let st1 := add_memory_relationship st0 "A" "B" "semantic" 1
    let st2 := add_memory_relationship st1 "B" "A" "semantic" 1
    (⟨"B", "A", "semantic", 1⟩ : HierarchyEdge) ∈ st2.hierarchies ∧
      st2.hierarchies.length = 2 ∧ ("B", "A") ∈ st2.graph := by
  decide

/-- C1 (amended): add_memory_relationship performs no cycle check and never
fails with ConsolidationConflict; whenever the durable insert succeeds it
appends the edge to the durable table and adds it to the in-memory graph
unconditionally.  In particular add_edge(A,B) followed by add_edge(B,A)
inserts both edges, and both are present afterwards. -/
theorem c1_add_edge_inserts_unconditionally (st : MemoryStore)
    (A B t1 t2 : String) (s1 s2 : ℚ) :
    let st1 := add_memory_relationship st A B t1 s1
    let st2 := add_memory_relationship st1 B A t2 s2
    st1.hierarchies = st.hierarchies ++ [⟨A, B, t1, s1⟩] ∧
      st2.hierarchies = st.hierarchies ++ [⟨A, B, t1, s1⟩, ⟨B, A, t2, s2⟩] ∧
      (A, B) ∈ st2.graph ∧ (B, A) ∈ st2.graph := by
  refine ⟨rfl, ?_, ?_, ?_⟩
  · simp [add_memory_relationship]
  · exact graph_mono_add _ B A t2 s2 (A, B) (graph_mem_add st A B t1 s1)
  · exact graph_mem_add _ B A t2 s2

/-! ## C2: MemoryHierarchy.prune_hierarchy (hierarchy.py lines 285-324)

The routine selects candidates with created_at below the cutoff and
importance below the threshold, then archives each candidate that the
get_memory_connections RPC reports as having no connections, and finally
issues a delete on memory_hierarchies for the rows incident to the archived
memory.  Two notes on fidelity: the source file never imports timedelta, so
at runtime line 289 raises NameError, the except block logs it, and the
routine is a no-op (under which the claim holds vacuously); we embed the
written logic with the cutoff computed as intended.  The RPC
get_memory_connections is a Supabase SQL function that is not under src. -/

/-- Modelled from the spec: the get_memory_connections RPC (a Supabase SQL
function, not present under src) returns the connections of a memory; per the
spec wording for pruning (zero incident edges) and importance recomputation
(mean relevance over the edges of this memory), it is the list of hierarchy
edges incident to the given memory id. -/
def get_memory_connections (edges : List HierarchyEdge) (memory_id : String) :
    List HierarchyEdge :=
  edges.filter (fun e =>
    e.parent_memory_id == memory_id || e.child_memory_id == memory_id)

/-- One iteration of the prune loop for a candidate id: if the RPC reports no
connections, set archive_status to archived on the memories rows with this id
and delete the memory_hierarchies rows whose parent or child is this id. -/
def prune_candidate (st : MemoryStore) (memory_id : String) : MemoryStore :=
  if (get_memory_connections st.hierarchies memory_id).isEmpty then
    { st with
      memories := st.memories.map (fun m =>
        if m.id == memory_id then { m with archive_status := "archived" } else m),
      hierarchies := st.hierarchies.filter (fun e =>
        !(e.parent_memory_id == memory_id || e.child_memory_id == memory_id)) }
  else st

/-- Shallow embedding of prune_hierarchy: select the candidate rows older
than the cutoff and below the importance threshold, then run the loop body on
each candidate in order. -/
def prune_hierarchy (st : MemoryStore) (now age_threshold importance_threshold : ℚ) :
    MemoryStore :=
  let cutoff := now - age_threshold
  let candidates := st.memories.filter (fun m =>
    decide (m.created_at < cutoff) && decide (m.importance < importance_threshold))
  candidates.foldl (fun s m => prune_candidate s m.id) st

theorem prune_candidate_hierarchies (st : MemoryStore) (memory_id : String) :
    (prune_candidate st memory_id).hierarchies = st.hierarchies := by
  unfold prune_candidate
  split
  · next h =>
      simp only
      rw [List.filter_eq_self]
      intro e he
      have h2 : ∀ e2 ∈ st.hierarchies,
          ¬ (e2.parent_memory_id == memory_id || e2.child_memory_id == memory_id) = true := by
        simpa [get_memory_connections, List.isEmpty_iff, List.filter_eq_nil_iff] using h
      simpa using h2 e he
  · rfl

theorem prune_candidate_embeddings (st : MemoryStore) (memory_id : String) :
    (prune_candidate st memory_id).embeddings = st.embeddings := by
  unfold prune_candidate
  split <;> rfl

theorem prune_candidate_graph (st : MemoryStore) (memory_id : String) :
    (prune_candidate st memory_id).graph = st.graph := by
  unfold prune_candidate
  split <;> rfl

/-- Projection of a memory row to the fields that pruning must not change. -/
def memoryCore (m : Memory) : String × String × ℚ × ℚ :=
  (m.id, m.content, m.importance, m.created_at)

theorem prune_candidate_memoryCore (st : MemoryStore) (memory_id : String) :
    (prune_candidate st memory_id).memories.map memoryCore =
      st.memories.map memoryCore := by
  unfold prune_candidate
  split
  · simp only [List.map_map]
    refine List.map_congr_left ?_
    intro m _
    by_cases h : m.id = memory_id <;> simp [memoryCore, h]
  · rfl

theorem prune_fold_hierarchies (L : List String) (st : MemoryStore) :
    (L.foldl (fun s id => prune_candidate s id) st).hierarchies = st.hierarchies := by
  induction L generalizing st with
  | nil => rfl
  | cons a L ih => rw [List.foldl_cons, ih, prune_candidate_hierarchies]

theorem prune_fold_embeddings (L : List String) (st : MemoryStore) :
    (L.foldl (fun s id => prune_candidate s id) st).embeddings = st.embeddings := by
  induction L generalizing st with
  | nil => rfl
  | cons a L ih => rw [List.foldl_cons, ih, prune_candidate_embeddings]

theorem prune_fold_memoryCore (L : List String) (st : MemoryStore) :
    (L.foldl (fun s id => prune_candidate s id) st).memories.map memoryCore =
      st.memories.map memoryCore := by
  induction L generalizing st with
  | nil => rfl
  | cons a L ih => rw [List.foldl_cons, ih, prune_candidate_memoryCore]

/-- Provenance of an archived flag through the prune loop: a memory that ends
archived was archived before the loop, or its id is one of the processed
candidate ids and that id had no incident edges at loop entry. -/
theorem prune_fold_archived_source (L : List String) (st : MemoryStore)
    (m2 : Memory)
    (hm2 : m2 ∈ (L.foldl (fun s id => prune_candidate s id) st).memories)
    (harch : m2.archive_status = "archived") :
    (∃ m1 ∈ st.memories, m1.id = m2.id ∧ m1.archive_status = "archived") ∨
      (m2.id ∈ L ∧ get_memory_connections st.hierarchies m2.id = []) := by
  induction L generalizing st with
  | nil =>
      exact Or.inl ⟨m2, hm2, rfl, harch⟩
  | cons a L ih =>
      rw [List.foldl_cons] at hm2
      have hedges : (prune_candidate st a).hierarchies = st.hierarchies :=
        prune_candidate_hierarchies st a
      rcases ih (prune_candidate st a) hm2 with ⟨m1, hmem, hid, h1⟩ | ⟨hin, hconn⟩
      · unfold prune_candidate at hmem
        by_cases hc : (get_memory_connections st.hierarchies a).isEmpty
        · rw [if_pos hc] at hmem
          simp only [List.mem_map] at hmem
          obtain ⟨m0, hm0, hm0eq⟩ := hmem
          by_cases hida : m0.id = a
          · right
            rw [if_pos (show (m0.id == a) = true by simpa using hida)] at hm0eq
            have hm2a : m2.id = a := by
              rw [← hid, ← hm0eq]
              simpa using hida
            rw [hm2a]
            exact ⟨List.mem_cons_self a L, List.isEmpty_iff.mp hc⟩
          · left
            rw [if_neg (show ¬ (m0.id == a) = true by simpa using hida)] at hm0eq
            subst hm0eq
            exact ⟨m0, hm0, hid, h1⟩
        · rw [if_neg hc] at hmem
          exact Or.inl ⟨m1, hmem, hid, h1⟩
      · rw [hedges] at hconn
        exact Or.inr ⟨List.mem_cons_of_mem a hin, hconn⟩

/-- C2: prune_hierarchy archives a previously active memory only if that
memory is older than the age cutoff, below the importance threshold, and has
zero incident hierarchy edges; and the run deletes no memory row, no stored
vector and no hierarchy edge (the edge delete it issues for an archived
memory matches nothing, because an archived memory had no incident edges). -/
theorem c2_prune_hierarchy_safe (st : MemoryStore) (now a i : ℚ)
    (hnodup : (st.memories.map Memory.id).Nodup) :
    let st2 := prune_hierarchy st now a i
    st2.hierarchies = st.hierarchies ∧
      st2.embeddings = st.embeddings ∧
      st2.memories.map memoryCore = st.memories.map memoryCore ∧
      ∀ m ∈ st.memories, ∀ m2 ∈ st2.memories, m2.id = m.id →
        m.archive_status ≠ "archived" → m2.archive_status = "archived" →
          m.created_at < now - a ∧ m.importance < i ∧
            get_memory_connections st.hierarchies m.id = [] := by
  intro st2
  have hfold : st2 = (st.memories.filter (fun m =>
      decide (m.created_at < now - a) && decide (m.importance < i))).foldl
      (fun s m => prune_candidate s m.id) st := rfl
  have hids : ∀ (G : List Memory) (s : MemoryStore),
      G.foldl (fun s m => prune_candidate s m.id) s =
        (G.map Memory.id).foldl (fun s id => prune_candidate s id) s := by
    intro G
    induction G with
    | nil => intro s; rfl
    | cons g G ihg => intro s; rw [List.foldl_cons, List.map_cons, List.foldl_cons, ihg]
  refine ⟨?_, ?_, ?_, ?_⟩
  · rw [hfold, hids]; exact prune_fold_hierarchies _ st
  · rw [hfold, hids]; exact prune_fold_embeddings _ st
  · rw [hfold, hids]; exact prune_fold_memoryCore _ st
  · intro m hm m2 hm2 hid hact harch
    rw [hfold, hids] at hm2
    rcases prune_fold_archived_source _ st m2 hm2 harch with ⟨m1, hm1, hid1, h1⟩ | ⟨hin, hconn⟩
    · exfalso
      have : m1 = m := List.inj_on_of_nodup_map hnodup hm1 hm (by rw [hid1, hid])
      exact hact (by rw [← this]; exact h1)
    · obtain ⟨c, hcf, hcid⟩ := List.mem_map.mp hin
      have hcmem : c ∈ st.memories := List.mem_of_mem_filter hcf
      have hcond := List.of_mem_filter hcf
      simp only [Bool.and_eq_true, decide_eq_true_eq] at hcond
      have hcm : c = m :=
        List.inj_on_of_nodup_map hnodup hcmem hm (by rw [hcid, hid])
      rw [hid] at hconn
      exact ⟨by rw [← hcm]; exact hcond.1, by rw [← hcm]; exact hcond.2, hconn⟩

/-- C2 witness: the theorem applied to a concrete store holding one old,
unimportant, unconnected memory. -/
theorem c2_witness :
    let st : MemoryStore :=
      ⟨[⟨"m1", "general", "txt", 1/10, "neutral", [], "default", "active", 0⟩],
        [("m1", [1])], [], []⟩
    (st.memories.map Memory.id).Nodup ∧
      (let st2 := prune_hierarchy st 100 30 (3/10)
       st2.hierarchies = st.hierarchies ∧
         st2.embeddings = st.embeddings ∧
         st2.memories.map memoryCore = st.memories.map memoryCore ∧
         ∀ m ∈ st.memories, ∀ m2 ∈ st2.memories, m2.id = m.id →
           m.archive_status ≠ "archived" → m2.archive_status = "archived" →
             m.created_at < 100 - 30 ∧ m.importance < 3/10 ∧
               get_memory_connections st.hierarchies m.id = []) :=
  ⟨by decide, c2_prune_hierarchy_safe _ 100 30 (3/10) (by decide)⟩

/-! ## C5: MemoryHierarchy.recompute_importance (hierarchy.py lines 233-283) -/

/-- Shallow embedding of recompute_importance: fetch the connections of the
memory through the get_memory_connections RPC; if there are none, return
without writing.  Otherwise the new importance is
0.3 * (0.1 * connection count) + 0.5 * (mean relevance over the connections)
+ 0.2 * (1 / (1 + age_days / 30)), where age_days is the integer day count of
now minus created_at, taken as 1 when the memories row is missing; the value
is then written back to the memories rows with this id.  The edge-count term
is not capped. -/
def recompute_importance (st : MemoryStore) (memory_id : String) (now : ℚ) :
    MemoryStore :=
  let connections := get_memory_connections st.hierarchies memory_id
  if connections.isEmpty then st
  else
    let direct_importance : ℚ := (connections.length : ℚ) * 0.1
    let strength_importance : ℚ :=
      (connections.map (fun c => c.relevance_score)).sum / (connections.length : ℚ)
    let time_factor : ℚ :=
      match st.memories.find? (fun m => m.id == memory_id) with
      | some m => 1 / (1 + ((⌊now - m.created_at⌋ : ℤ) : ℚ) / 30)
      | none => 1
    let final_importance :=
      direct_importance * 0.3 + strength_importance * 0.5 + time_factor * 0.2
    { st with
      memories := st.memories.map (fun m =>
        if m.id == memory_id then { m with importance := final_importance } else m) }

/-- C5 counterexample: the claim says the written importance always lies in
[0, 1] because the edge-count term is capped at 1.  For a memory with 11
connections of relevance 1 and age 0 the code writes
0.3 * (11 * 0.1) + 0.5 * 1 + 0.2 * 1 = 1.03 > 1: the edge-count term is not
capped, so the claim is false. -/
theorem c5_counterexample :
    let e : HierarchyEdge := ⟨"m", "x", "semantic", 1⟩
    let st : MemoryStore :=
      ⟨[⟨"m", "general", "txt", 1, "neutral", [], "default", "active", 0⟩],
        [], [e, e, e, e, e, e, e, e, e, e, e], []⟩
    ((recompute_importance st "m" 0).memories.map Memory.importance) = [103/100] ∧
      ¬ ((103 : ℚ)/100 ≤ 1) := by
  refine ⟨?_, by norm_num⟩
  norm_num [recompute_importance, get_memory_connections]

/-- C5 (amended): for a memory with at least one connection,
recompute_importance writes back importance equal to
0.3 * (0.1 * edge count, not capped at 1) + 0.5 * (mean relevance over the
edges of the memory) + 0.2 * (1 / (1 + age_days / 30)); because the
edge-count term is uncapped, the written value can exceed 1 (see the
counterexample). -/
theorem c5_recompute_importance_formula (st : MemoryStore) (memory_id : String)
    (now : ℚ) (m : Memory)
    (hm : st.memories.find? (fun x => x.id == memory_id) = some m)
    (hconn : get_memory_connections st.hierarchies memory_id ≠ []) :
    let conns := get_memory_connections st.hierarchies memory_id
    let value := ((conns.length : ℚ) * 0.1) * 0.3 +
      ((conns.map (fun c => c.relevance_score)).sum / (conns.length : ℚ)) * 0.5 +
      (1 / (1 + ((⌊now - m.created_at⌋ : ℤ) : ℚ) / 30)) * 0.2
    (∃ m2 ∈ (recompute_importance st memory_id now).memories, m2.id = memory_id) ∧
      ∀ m2 ∈ (recompute_importance st memory_id now).memories,
        m2.id = memory_id → m2.importance = value := by
  intro conns value
  have hne : conns.isEmpty = false := by
    cases h : conns.isEmpty
    · rfl
    · exact absurd (List.isEmpty_iff.mp h) hconn
  have hmem : m ∈ st.memories := List.mem_of_find?_eq_some hm
  have hmid : (m.id == memory_id) = true := by
    simpa using List.find?_some hm
  constructor
  · refine ⟨{ m with importance := value }, ?_, by simpa using hmid⟩
    unfold recompute_importance
    rw [if_neg (by simp [hne])]
    simp only [List.mem_map]
    refine ⟨m, hmem, ?_⟩
    rw [if_pos hmid, hm]
  · intro m2 hm2 hid2
    unfold recompute_importance at hm2
    rw [if_neg (by simp [hne])] at hm2
    simp only [List.mem_map] at hm2
    obtain ⟨m0, hm0, hm0eq⟩ := hm2
    by_cases h0 : (m0.id == memory_id) = true
    · rw [if_pos h0, hm] at hm0eq
      rw [← hm0eq]
    · rw [if_neg h0] at hm0eq
      exact absurd (by rw [hm0eq]; simpa using hid2) h0

/-- C5 witness: the amended theorem applied to the concrete store of the
counterexample. -/
theorem c5_witness :
    let e : HierarchyEdge := ⟨"m", "x", "semantic", 1⟩
    let st : MemoryStore :=
      ⟨[⟨"m", "general", "txt", 1, "neutral", [], "default", "active", 0⟩],
        [], [e, e, e, e, e, e, e, e, e, e, e], []⟩
    let m : Memory := ⟨"m", "general", "txt", 1, "neutral", [], "default", "active", 0⟩
    st.memories.find? (fun x => x.id == "m") = some m ∧
      get_memory_connections st.hierarchies "m" ≠ [] ∧
      (let conns := get_memory_connections st.hierarchies "m"
       let value := ((conns.length : ℚ) * 0.1) * 0.3 +
         ((conns.map (fun c => c.relevance_score)).sum / (conns.length : ℚ)) * 0.5 +
         (1 / (1 + ((⌊(0 : ℚ) - m.created_at⌋ : ℤ) : ℚ) / 30)) * 0.2
       (∃ m2 ∈ (recompute_importance st "m" 0).memories, m2.id = "m") ∧
         ∀ m2 ∈ (recompute_importance st "m" 0).memories,
           m2.id = "m" → m2.importance = value) :=
  ⟨by decide, by decide, c5_recompute_importance_formula _ "m" 0 _ (by decide) (by decide)⟩

/-! ## C4: MemoryHierarchy.consolidate_memories and _create_consolidated_memory
(hierarchy.py lines 140-231)

The RPCs get_root_memories and find_similar_memories are Supabase SQL
functions not present under src; the theorems below therefore take one root
memory together with the similar-memory list those RPCs would return, and
embed the body of the loop iteration that consolidates that group. -/

/-- Python set insertion used by _merge_associations: add an element unless
already present (first-occurrence order stands in for the unordered set). -/
def pySetAdd (a : List String) (s : String) : List String :=
  if s ∈ a then a else a ++ [s]

/-- Shallow embedding of _merge_associations (hierarchy.py lines 223-231) for
list-valued associations, which is the shape the data model declares:
the union of the associations of all the memories. -/
def merge_associations (memories : List Memory) : List String :=
  memories.foldl (fun acc m => m.associations.foldl pySetAdd acc) []

/-- One step of the defaultdict counting loop in _combine_emotional_contexts:
bump the count of an existing key or append a new key with count 1. -/
def ccStep (acc : List (String × ℕ)) (c : String) : List (String × ℕ) :=
  if acc.any (fun p => p.1 == c) then
    acc.map (fun p => if p.1 = c then (p.1, p.2 + 1) else p)
  else acc ++ [(c, 1)]

/-- The context_counts dict of _combine_emotional_contexts, in Python dict
insertion order. -/
def contextCounts (contexts : List String) : List (String × ℕ) :=
  contexts.foldl ccStep []

/-- Python max(items, key=lambda x: x[1]): the first element with maximal
second component. -/
def maxBySnd (p : String × ℕ) : List (String × ℕ) → String × ℕ
  | [] => p
  | q :: rest => if p.2 < q.2 then maxBySnd q rest else maxBySnd p rest

/-- Shallow embedding of _combine_emotional_contexts (hierarchy.py lines
209-221): keep the truthy (nonempty) context labels, count them, and return
the most common one, or neutral when there is none. -/
def combine_emotional_contexts (memories : List Memory) : String :=
  let contexts := (memories.map Memory.emotional_context).filter (fun c => !(c == ""))
  if contexts.isEmpty then "neutral"
  else
    match contextCounts contexts with
    | [] => "neutral"
    | p :: rest => (maxBySnd p rest).1

/-- Shallow embedding of _create_consolidated_memory (hierarchy.py lines
178-207): the new memories row built from a group of memories.  The columns
the insert does not set (platform, archive_status, created_at) take table
defaults, modelled as the default platform, active status, and the insertion
time; the source metadata column is not modelled. -/
def create_consolidated_memory (memories : List Memory) (new_id : String)
    (now : ℚ) : Memory :=
  { id := new_id
    mtype := "consolidated"
    content := String.intercalate "\n" (memories.map Memory.content)
    importance := (memories.map Memory.importance).sum / (memories.length : ℚ)
    emotional_context := combine_emotional_contexts memories
    associations := merge_associations memories
    platform := "default"
    archive_status := "active"
    created_at := now }

/-- Shallow embedding of one iteration of the consolidate_memories loop
(hierarchy.py lines 152-174) for a root memory whose find_similar_memories
result is the given list: when the list is nonempty, insert the consolidated
memory built from the seed memory plus the similar memories, then call
add_memory_relationship from the new id to each SIMILAR memory (the source
does not link the seed memory itself). -/
def consolidate_group (st : MemoryStore) (memory : Memory)
    (similar : List Memory) (new_id : String) (now : ℚ) : MemoryStore :=
  if similar.isEmpty then st
  else
    let consolidated := create_consolidated_memory (memory :: similar) new_id now
    let st1 := { st with memories := st.memories ++ [consolidated] }
    similar.foldl
      (fun s mem => add_memory_relationship s new_id mem.id "consolidated" 1) st1

/-! Supporting lemmas for the counting dict. -/

/-- The value stored under the first entry with the given key, 0 when the key
is absent. -/
def lookupCount : List (String × ℕ) → String → ℕ
  | [], _ => 0
  | p :: d, k => if p.1 = k then p.2 else lookupCount d k

theorem lookupCount_map_bump_ne (acc : List (String × ℕ)) (c k : String)
    (hkc : k ≠ c) :
    lookupCount (acc.map (fun p => if p.1 = c then (p.1, p.2 + 1) else p)) k =
      lookupCount acc k := by
  induction acc with
  | nil => rfl
  | cons p d ih =>
      by_cases hp : p.1 = c
      · have hck : ¬ c = k := fun h => hkc h.symm
        simp [lookupCount, hp, hck, ih]
      · by_cases hpk : p.1 = k
        · simp [lookupCount, hp, hpk, hkc]
        · simp [lookupCount, hp, hpk, ih]

theorem lookupCount_map_bump_eq (acc : List (String × ℕ)) (c : String)
    (hany : acc.any (fun p => p.1 == c) = true) :
    lookupCount (acc.map (fun p => if p.1 = c then (p.1, p.2 + 1) else p)) c =
      lookupCount acc c + 1 := by
  induction acc with
  | nil => simp at hany
  | cons p d ih =>
      by_cases hp : p.1 = c
      · simp [lookupCount, hp]
      · have hd : d.any (fun p => p.1 == c) = true := by
          rcases Bool.or_eq_true_iff.mp (by simpa only [List.any_cons] using hany)
            with h | h
          · exact absurd (by simpa using h) hp
          · exact h
        simp [lookupCount, hp, ih hd]

theorem lookupCount_eq_zero_of_not_any (acc : List (String × ℕ)) (k : String)
    (h : acc.any (fun p => p.1 == k) = false) : lookupCount acc k = 0 := by
  induction acc with
  | nil => rfl
  | cons p d ih =>
      rw [List.any_cons, Bool.or_eq_false_iff] at h
      have hp : ¬ p.1 = k := by simpa using h.1
      simpa [lookupCount, hp] using ih h.2

theorem lookupCount_append_of_not_any (acc l2 : List (String × ℕ)) (k : String)
    (h : acc.any (fun p => p.1 == k) = false) :
    lookupCount (acc ++ l2) k = lookupCount l2 k := by
  induction acc with
  | nil => rfl
  | cons p d ih =>
      rw [List.any_cons, Bool.or_eq_false_iff] at h
      have hp : ¬ p.1 = k := by simpa using h.1
      simpa [lookupCount, hp] using ih h.2

theorem lookupCount_append_left (acc l2 : List (String × ℕ)) (k : String)
    (h : acc.any (fun p => p.1 == k) = true) :
    lookupCount (acc ++ l2) k = lookupCount acc k := by
  induction acc with
  | nil => simp at h
  | cons p d ih =>
      by_cases hp : p.1 = k
      · simp [lookupCount, hp]
      · have hd : d.any (fun q => q.1 == k) = true := by
          rcases Bool.or_eq_true_iff.mp (by simpa only [List.any_cons] using h)
            with h2 | h2
          · exact absurd (by simpa using h2) hp
          · exact h2
        simpa [lookupCount, hp] using ih hd

theorem ccStep_lookup (acc : List (String × ℕ)) (c k : String) :
    lookupCount (ccStep acc c) k = lookupCount acc k + (if k = c then 1 else 0) := by
  unfold ccStep
  by_cases hany : acc.any (fun p => p.1 == c) = true
  · rw [if_pos hany]
    by_cases hkc : k = c
    · subst hkc
      simp [lookupCount_map_bump_eq acc k hany]
    · simp [lookupCount_map_bump_ne acc c k hkc, hkc]
  · rw [if_neg hany]
    have hfalse : acc.any (fun p => p.1 == c) = false :=
      Bool.eq_false_iff.mpr hany
    by_cases hkc : k = c
    · subst hkc
      rw [lookupCount_append_of_not_any acc _ k hfalse,
        lookupCount_eq_zero_of_not_any acc k hfalse]
      simp [lookupCount]
    · cases hk : acc.any (fun p => p.1 == k) with
      | true => simp [lookupCount_append_left acc _ k hk, hkc]
      | false =>
          have hck : ¬ c = k := fun h => hkc h.symm
          rw [lookupCount_append_of_not_any acc _ k hk,
            lookupCount_eq_zero_of_not_any acc k hk]
          simp [lookupCount, hck, hkc]

theorem contextCounts_lookup_aux (l : List String) :
    ∀ acc k, lookupCount (l.foldl ccStep acc) k = lookupCount acc k + l.count k := by
  induction l with
  | nil => intro acc k; simp
  | cons c l ih =>
      intro acc k
      rw [List.foldl_cons, ih, ccStep_lookup]
      by_cases hkc : k = c
      · simp [List.count_cons, hkc]
        omega
      · simp [List.count_cons, hkc]

theorem contextCounts_lookup (l : List String) (k : String) :
    lookupCount (contextCounts l) k = l.count k := by
  simpa [contextCounts, lookupCount] using contextCounts_lookup_aux l [] k

/-- A nonzero lookup is witnessed by the first entry with that key. -/
theorem exists_entry_of_lookupCount_ne_zero (d : List (String × ℕ)) (k : String)
    (h : lookupCount d k ≠ 0) : ∃ p ∈ d, p.1 = k ∧ p.2 = lookupCount d k := by
  induction d with
  | nil => exact absurd rfl h
  | cons p d ih =>
      by_cases hp : p.1 = k
      · exact ⟨p, List.mem_cons_self p d, hp, by simp [lookupCount, hp]⟩
      · rw [lookupCount, if_neg hp] at h ⊢
        obtain ⟨q, hq, hq1, hq2⟩ := ih h
        exact ⟨q, List.mem_cons_of_mem p hq, hq1, hq2⟩

/-- Keys of the counting dict stay nodup through one step. -/
theorem ccStep_keys_nodup (acc : List (String × ℕ)) (c : String)
    (h : (acc.map Prod.fst).Nodup) : ((ccStep acc c).map Prod.fst).Nodup := by
  unfold ccStep
  by_cases hany : acc.any (fun p => p.1 == c) = true
  · rw [if_pos hany]
    have : (acc.map (fun p => if p.1 = c then (p.1, p.2 + 1) else p)).map Prod.fst =
        acc.map Prod.fst := by
      rw [List.map_map]
      refine List.map_congr_left ?_
      intro p _
      by_cases hp : p.1 = c <;> simp [hp]
    rw [this]
    exact h
  · rw [if_neg hany]
    have hc : c ∉ acc.map Prod.fst := by
      intro hmem
      obtain ⟨p, hp, hp1⟩ := List.mem_map.mp hmem
      exact hany (List.any_eq_true.mpr ⟨p, hp, by simpa using hp1⟩)
    have hmap : (acc ++ [(c, 1)]).map Prod.fst = acc.map Prod.fst ++ [c] := by simp
    rw [hmap]
    refine List.Nodup.append h (List.nodup_singleton c) ?_
    intro a ha hb
    rw [List.mem_singleton] at hb
    exact hc (hb ▸ ha)

theorem contextCounts_keys_nodup (l : List String) :
    ((contextCounts l).map Prod.fst).Nodup := by
  have : ∀ acc : List (String × ℕ), (acc.map Prod.fst).Nodup →
      ((l.foldl ccStep acc).map Prod.fst).Nodup := by
    induction l with
    | nil => intro acc h; exact h
    | cons c l ih =>
        intro acc h
        rw [List.foldl_cons]
        exact ih _ (ccStep_keys_nodup acc c h)
  simpa [contextCounts] using this [] (by simp)

/-- In a dict with nodup keys, every entry carries the looked-up value of its
key. -/
theorem entry_eq_lookupCount (d : List (String × ℕ))
    (hn : (d.map Prod.fst).Nodup) (p : String × ℕ) (hp : p ∈ d) :
    p.2 = lookupCount d p.1 := by
  induction d with
  | nil => cases hp
  | cons q d ih =>
      rw [List.map_cons] at hn
      rcases List.mem_cons.mp hp with rfl | hp2
      · simp [lookupCount]
      · have hq : q.1 ∉ d.map Prod.fst := (List.nodup_cons.mp hn).1
        have hne : ¬ q.1 = p.1 := by
          intro h
          exact hq (h ▸ List.mem_map.mpr ⟨p, hp2, rfl⟩)
        rw [lookupCount, if_neg hne]
        exact ih (List.nodup_cons.mp hn).2 hp2

/-- maxBySnd returns a member of the candidate list whose second component
dominates every member. -/
theorem maxBySnd_spec (rest : List (String × ℕ)) :
    ∀ p : String × ℕ, maxBySnd p rest ∈ p :: rest ∧
      ∀ q ∈ p :: rest, q.2 ≤ (maxBySnd p rest).2 := by
  induction rest with
  | nil =>
      intro p
      exact ⟨List.mem_cons_self p [], by
        intro q hq
        rcases List.mem_cons.mp hq with rfl | hq
        · exact le_refl _
        · cases hq⟩
  | cons r rest ih =>
      intro p
      by_cases h : p.2 < r.2
      · obtain ⟨hmem, hbound⟩ := ih r
        refine ⟨?_, ?_⟩
        · rw [maxBySnd, if_pos h]
          rcases List.mem_cons.mp hmem with he | hmem2
          · rw [he]; exact List.mem_cons_of_mem p (List.mem_cons_self r rest)
          · exact List.mem_cons_of_mem p (List.mem_cons_of_mem r hmem2)
        · intro q hq
          rw [maxBySnd, if_pos h]
          rcases List.mem_cons.mp hq with rfl | hq2
          · exact le_trans (le_of_lt h) (hbound r (List.mem_cons_self r rest))
          · exact hbound q hq2
      · obtain ⟨hmem, hbound⟩ := ih p
        refine ⟨?_, ?_⟩
        · rw [maxBySnd, if_neg h]
          rcases List.mem_cons.mp hmem with he | hmem2
          · rw [he]; exact List.mem_cons_self p _
          · exact List.mem_cons_of_mem p (List.mem_cons_of_mem r hmem2)
        · intro q hq
          rw [maxBySnd, if_neg h]
          rcases List.mem_cons.mp hq with rfl | hq2
          · exact hbound q (List.mem_cons_self q rest)
          · rcases List.mem_cons.mp hq2 with rfl | hq3
            · exact le_trans (not_lt.mp h) (hbound p (List.mem_cons_self p rest))
            · exact hbound q (List.mem_cons_of_mem p hq3)

/-- The label returned by _combine_emotional_contexts is a most frequent
label: when every memory of the group carries a nonempty emotional_context,
its occurrence count dominates the count of every label. -/
theorem combine_emotional_contexts_max (memories : List Memory)
    (hctx : ∀ m ∈ memories, m.emotional_context ≠ "") (hne : memories ≠ []) :
    ∀ lbl : String,
      (memories.map Memory.emotional_context).count lbl ≤
        (memories.map Memory.emotional_context).count
          (combine_emotional_contexts memories) := by
  intro lbl
  have hfilter : (memories.map Memory.emotional_context).filter (fun c => !(c == "")) =
      memories.map Memory.emotional_context := by
    rw [List.filter_eq_self]
    intro c hc
    obtain ⟨m, hm, hmc⟩ := List.mem_map.mp hc
    simpa [hmc] using hctx m hm
  set contexts := memories.map Memory.emotional_context with hctxdef
  unfold combine_emotional_contexts
  rw [← hctxdef, hfilter]
  have hcne : contexts ≠ [] := by
    intro h
    exact hne (List.map_eq_nil_iff.mp (hctxdef ▸ h))
  rw [if_neg (by simpa [List.isEmpty_iff] using hcne)]
  cases hcc : contextCounts contexts with
  | nil =>
      exfalso
      obtain ⟨c0, hc0⟩ := List.exists_mem_of_ne_nil contexts hcne
      have : lookupCount (contextCounts contexts) c0 = contexts.count c0 :=
        contextCounts_lookup contexts c0
      rw [hcc] at this
      have hpos : 0 < contexts.count c0 := List.count_pos_iff.mpr hc0
      simp [lookupCount] at this
      omega
  | cons p rest =>
      show contexts.count lbl ≤ contexts.count (maxBySnd p rest).1
      obtain ⟨hmem, hbound⟩ := maxBySnd_spec rest p
      have hnodup := contextCounts_keys_nodup contexts
      rw [hcc] at hnodup
      have hval : (maxBySnd p rest).2 =
          lookupCount (p :: rest) (maxBySnd p rest).1 :=
        entry_eq_lookupCount (p :: rest) hnodup _ hmem
      have hcountmax : contexts.count (maxBySnd p rest).1 = (maxBySnd p rest).2 := by
        have := contextCounts_lookup contexts (maxBySnd p rest).1
        rw [hcc] at this
        omega
      by_cases hl : contexts.count lbl = 0
      · omega
      · have hlook : lookupCount (contextCounts contexts) lbl ≠ 0 := by
          rw [contextCounts_lookup]; exact hl
        rw [hcc] at hlook
        obtain ⟨q, hq, hq1, hq2⟩ :=
          exists_entry_of_lookupCount_ne_zero (p :: rest) lbl hlook
        have hqcount : contexts.count lbl = q.2 := by
          have := contextCounts_lookup contexts lbl
          rw [hcc] at this
          omega
        have := hbound q hq
        omega

/-! Lemmas about merge_associations. -/

theorem mem_pySetAdd_self (a : List String) (s : String) : s ∈ pySetAdd a s := by
  unfold pySetAdd
  split
  · assumption
  · simp

theorem pySetAdd_mono (a : List String) (s x : String) (h : x ∈ a) :
    x ∈ pySetAdd a s := by
  unfold pySetAdd
  split
  · exact h
  · simp [h]

theorem foldl_pySetAdd_mono (l : List String) :
    ∀ acc x, x ∈ acc → x ∈ l.foldl pySetAdd acc := by
  induction l with
  | nil => intro acc x h; exact h
  | cons s l ih =>
      intro acc x h
      rw [List.foldl_cons]
      exact ih _ x (pySetAdd_mono acc s x h)

theorem mem_foldl_pySetAdd (l : List String) :
    ∀ acc x, x ∈ l → x ∈ l.foldl pySetAdd acc := by
  induction l with
  | nil => intro acc x h; cases h
  | cons s l ih =>
      intro acc x h
      rw [List.foldl_cons]
      rcases List.mem_cons.mp h with rfl | h2
      · exact foldl_pySetAdd_mono l _ x (mem_pySetAdd_self acc x)
      · exact ih _ x h2

theorem assoc_fold_mono (l : List Memory) :
    ∀ acc x, x ∈ acc →
      x ∈ l.foldl (fun acc m => m.associations.foldl pySetAdd acc) acc := by
  induction l with
  | nil => intro acc x h; exact h
  | cons m0 l ih =>
      intro acc x h
      rw [List.foldl_cons]
      exact ih _ x (foldl_pySetAdd_mono m0.associations acc x h)

theorem merge_associations_superset (memories : List Memory) :
    ∀ m ∈ memories, ∀ a ∈ m.associations, a ∈ merge_associations memories := by
  have main : ∀ (l : List Memory) (acc : List String), ∀ m ∈ l,
      ∀ a ∈ m.associations,
        a ∈ l.foldl (fun acc m => m.associations.foldl pySetAdd acc) acc := by
    intro l
    induction l with
    | nil => intro acc m hm; cases hm
    | cons m0 l ih =>
        intro acc m hm a ha
        rw [List.foldl_cons]
        rcases List.mem_cons.mp hm with rfl | hm2
        · exact assoc_fold_mono l _ a (mem_foldl_pySetAdd _ acc a ha)
        · exact ih _ m hm2 a ha
  intro m hm a ha
  exact main memories [] m hm a ha

theorem consolidate_fold_hierarchies (new_id : String) (L : List Memory) :
    ∀ s : MemoryStore,
      (L.foldl (fun s mem => add_memory_relationship s new_id mem.id "consolidated" 1) s).hierarchies =
        s.hierarchies ++ L.map (fun mem => ⟨new_id, mem.id, "consolidated", 1⟩) := by
  induction L with
  | nil => intro s; simp
  | cons mem L ih =>
      intro s
      rw [List.foldl_cons, ih]
      simp [add_memory_relationship]

theorem consolidate_fold_memories (new_id : String) (L : List Memory) :
    ∀ s : MemoryStore,
      (L.foldl (fun s mem => add_memory_relationship s new_id mem.id "consolidated" 1) s).memories =
        s.memories := by
  induction L with
  | nil => intro s; rfl
  | cons mem L ih =>
      intro s
      rw [List.foldl_cons, ih]
      rfl

/-- C4 counterexample: the claim says each original memory of the group is
linked as a child of the new consolidated memory.  For the group consisting
of the seed memory A and one similar memory B, the code links only B: the
hierarchy table after consolidation has no edge whose child is A, so the
claim is false. -/
theorem c4_counterexample :
    let A : Memory := ⟨"A", "general", "a", 1, "happy", ["x"], "default", "active", 0⟩
    let B : Memory := ⟨"B", "general", "b", 1, "happy", ["y"], "default", "active", 0⟩
    let st0 : MemoryStore := ⟨[A, B], [], [], []⟩
    let st2 := consolidate_group st0 A [B] "N" 0
    ¬ (∀ m ∈ [A, B], ∃ e ∈ st2.hierarchies,
        e.parent_memory_id = "N" ∧ e.child_memory_id = m.id ∧
          e.hierarchy_type = "consolidated" ∧ e.relevance_score = 1) := by
  intro A B st0 st2 h
  obtain ⟨e, he, -, hchild, -, -⟩ := h A (by decide)
  have he2 : e ∈ [(⟨"N", "B", "consolidated", 1⟩ : HierarchyEdge)] := he
  rw [List.mem_singleton] at he2
  rw [he2] at hchild
  exact absurd hchild (by decide)

/-- C4 (amended): for a group of size at least 2 (one seed root plus a
nonempty similar list), consolidation inserts one new memory whose content is
the newline-joined concatenation of the group contents, whose importance is
the arithmetic mean of the group importances, whose emotional_context is a
most frequent label of the group (when every member carries one), and whose
associations contain every association of every group member; and it links
each SIMILAR memory - but not the seed root itself - as a child of the new
memory with relation_type consolidated and score 1. -/
theorem c4_consolidate_amended (st : MemoryStore) (memory : Memory)
    (similar : List Memory) (new_id : String) (now : ℚ)
    (hsim : similar ≠ [])
    (hctx : ∀ m ∈ memory :: similar, m.emotional_context ≠ "") :
    let group := memory :: similar
    let st2 := consolidate_group st memory similar new_id now
    let c := create_consolidated_memory group new_id now
    c ∈ st2.memories ∧
      c.content = String.intercalate "\n" (group.map Memory.content) ∧
      c.importance = (group.map Memory.importance).sum / (group.length : ℚ) ∧
      (∀ m ∈ group, ∀ a ∈ m.associations, a ∈ c.associations) ∧
      (∀ lbl : String, (group.map Memory.emotional_context).count lbl ≤
        (group.map Memory.emotional_context).count c.emotional_context) ∧
      (∀ mem ∈ similar, (⟨new_id, mem.id, "consolidated", 1⟩ : HierarchyEdge) ∈
        st2.hierarchies) ∧
      st2.memories = st.memories ++ [c] := by
  intro group st2 c
  have hisem : similar.isEmpty = false := by
    cases h : similar.isEmpty
    · rfl
    · exact absurd (List.isEmpty_iff.mp h) hsim
  have hst2mem : st2.memories = st.memories ++ [c] := by
    show (consolidate_group st memory similar new_id now).memories = _
    unfold consolidate_group
    rw [if_neg (by simp [hisem])]
    rw [consolidate_fold_memories]
  have hst2h : st2.hierarchies = st.hierarchies ++
      similar.map (fun mem => ⟨new_id, mem.id, "consolidated", 1⟩) := by
    show (consolidate_group st memory similar new_id now).hierarchies = _
    unfold consolidate_group
    rw [if_neg (by simp [hisem])]
    rw [consolidate_fold_hierarchies]
  refine ⟨?_, rfl, rfl, ?_, ?_, ?_, hst2mem⟩
  · rw [hst2mem]
    simp
  · exact merge_associations_superset group
  · exact combine_emotional_contexts_max group hctx (by simp)
  · intro mem hmem
    rw [hst2h]
    refine List.mem_append_right _ ?_
    exact List.mem_map.mpr ⟨mem, hmem, rfl⟩

/-- C4 witness: the amended theorem applied to a concrete two-memory group. -/
theorem c4_witness :
    let A : Memory := ⟨"A", "general", "a", 1, "happy", ["x"], "default", "active", 0⟩
    let B : Memory := ⟨"B", "general", "b", 1, "happy", ["y"], "default", "active", 0⟩
    let st0 : MemoryStore := ⟨[A, B], [], [], []⟩
    ([B] : List Memory) ≠ [] ∧
      (∀ m ∈ A :: [B], m.emotional_context ≠ "") ∧
      (let group := A :: [B]
       let st2 := consolidate_group st0 A [B] "N" 0
       let c := create_consolidated_memory group "N" 0
       c ∈ st2.memories ∧
         c.content = String.intercalate "\n" (group.map Memory.content) ∧
         c.importance = (group.map Memory.importance).sum / (group.length : ℚ) ∧
         (∀ m ∈ group, ∀ a ∈ m.associations, a ∈ c.associations) ∧
         (∀ lbl : String, (group.map Memory.emotional_context).count lbl ≤
           (group.map Memory.emotional_context).count c.emotional_context) ∧
         (∀ mem ∈ [B], (⟨"N", mem.id, "consolidated", 1⟩ : HierarchyEdge) ∈
           st2.hierarchies) ∧
         st2.memories = st0.memories ++ [c]) :=
  ⟨by decide, by decide, c4_consolidate_amended _ _ _ "N" 0 (by decide) (by decide)⟩

/-! ## C3: MemoryRetrieval._hybrid_search (retrieval.py lines 173-230)

The two sub-searches are awaited together (asyncio.gather) before the merge
runs; the merge is therefore a pure function of the two result lists.  The
combined dict keyed by memory_id is modelled as an association list in
Python dict insertion order, with updates keeping the original position. -/

/-- A transient search result row (retrieval.py SearchResult dataclass; the
open metadata map is not modelled). -/
structure SearchResult where
  memory_id : String
  content : String
  relevance : ℚ
  created_at : ℚ
deriving DecidableEq

/-- An entry of the combined dict of _hybrid_search. -/
structure HybridEntry where
  result : SearchResult
  semantic_score : ℚ
  temporal_score : ℚ
deriving DecidableEq

/-- The first loop of the merge: store each semantic result under its id with
its relevance as semantic_score and 0 as temporal_score. -/
def hybridInsertSem (d : List (String × HybridEntry)) (r : SearchResult) :
    List (String × HybridEntry) :=
  if d.any (fun p => p.1 == r.memory_id) then
    d.map (fun p => if p.1 = r.memory_id then (p.1, ⟨r, r.relevance, 0⟩) else p)
  else d ++ [(r.memory_id, ⟨r, r.relevance, 0⟩)]

/-- The second loop of the merge: set the temporal_score of an id already
present, or add a new entry with 0 as semantic_score. -/
def hybridInsertTemp (d : List (String × HybridEntry)) (r : SearchResult) :
    List (String × HybridEntry) :=
  if d.any (fun p => p.1 == r.memory_id) then
    d.map (fun p => if p.1 = r.memory_id then
      (p.1, { p.2 with temporal_score := r.relevance }) else p)
  else d ++ [(r.memory_id, ⟨r, 0, r.relevance⟩)]

/-- Shallow embedding of the merge, scoring, sort and truncation of
_hybrid_search: build the combined dict from the semantic results then the
temporal results, give each entry the final score
semantic_score * 0.7 + temporal_score * 0.3, sort descending and truncate. -/
def hybrid_search_combine (semantic_results temporal_results : List SearchResult)
    (limit : ℕ) : List SearchResult :=
  let d1 := semantic_results.foldl hybridInsertSem []
  let d2 := temporal_results.foldl hybridInsertTemp d1
  let results := d2.map (fun p =>
    { p.2.result with relevance := p.2.semantic_score * 0.7 + p.2.temporal_score * 0.3 })
  (sortDescBy (fun r => r.relevance) results).take limit

/-- The score a sub-search assigns to an id, 0 when the id is absent. -/
def subSearchScore (results : List SearchResult) (id : String) : ℚ :=
  ((results.find? (fun r => r.memory_id == id)).map (fun r => r.relevance)).getD 0

theorem hybridInsertSem_closed (sem : List SearchResult) :
    ∀ d : List (String × HybridEntry),
      (sem.map SearchResult.memory_id).Nodup →
      (∀ r ∈ sem, d.any (fun p => p.1 == r.memory_id) = false) →
      sem.foldl hybridInsertSem d =
        d ++ sem.map (fun r => (r.memory_id, ⟨r, r.relevance, 0⟩)) := by
  induction sem with
  | nil => intro d _ _; simp
  | cons r sem ih =>
      intro d hnodup hdisj
      rw [List.foldl_cons]
      rw [List.map_cons] at hnodup
      have hr : d.any (fun p => p.1 == r.memory_id) = false :=
        hdisj r (List.mem_cons_self r sem)
      have hstep : hybridInsertSem d r = d ++ [(r.memory_id, ⟨r, r.relevance, 0⟩)] := by
        unfold hybridInsertSem
        rw [if_neg (by simp [hr])]
      rw [hstep, ih _ (List.nodup_cons.mp hnodup).2 ?_]
      · simp
      · intro r2 hr2
        rw [List.any_append]
        have h1 : d.any (fun p => p.1 == r2.memory_id) = false :=
          hdisj r2 (List.mem_cons_of_mem r hr2)
        have h2 : ¬ r.memory_id = r2.memory_id := by
          intro h
          exact (List.nodup_cons.mp hnodup).1
            (h ▸ List.mem_map.mpr ⟨r2, hr2, rfl⟩)
        simp [h1, List.any_cons, h2]

/-- The per-entry update the second loop performs once all temporal results
are processed: entries whose key some temporal result carries get its
relevance as temporal_score. -/
def hybridTempUpd (ts : List SearchResult) (p : String × HybridEntry) :
    String × HybridEntry :=
  match ts.find? (fun r => r.memory_id == p.1) with
  | some u => (p.1, { p.2 with temporal_score := u.relevance })
  | none => p

/-- The fresh dict entry the second loop appends for an unseen id. -/
def hybridNewEntry (t : SearchResult) : String × HybridEntry :=
  (t.memory_id, ⟨t, 0, t.relevance⟩)

theorem hybridInsertTemp_closed (temp : List SearchResult) :
    ∀ d : List (String × HybridEntry),
      (temp.map SearchResult.memory_id).Nodup →
      temp.foldl hybridInsertTemp d =
        d.map (hybridTempUpd temp) ++
        (temp.filter (fun t => !(d.any (fun p => p.1 == t.memory_id)))).map
          hybridNewEntry := by
  induction temp with
  | nil =>
      intro d _
      have hfun : hybridTempUpd [] = (fun p => p) := funext (fun p => rfl)
      simp [hfun]
  | cons t ts ih =>
      intro d hnodup
      rw [List.map_cons] at hnodup
      have htni : t.memory_id ∉ ts.map SearchResult.memory_id :=
        (List.nodup_cons.mp hnodup).1
      have hfind_ts_t :
          ts.find? (fun r => r.memory_id == t.memory_id) = none := by
        rw [List.find?_eq_none]
        intro r hr hbeq
        exact htni ((by simpa using hbeq : r.memory_id = t.memory_id) ▸
          List.mem_map.mpr ⟨r, hr, rfl⟩)
      have hupd_t_key : ∀ e : HybridEntry,
          hybridTempUpd ts (t.memory_id, e) = (t.memory_id, e) := by
        intro e
        unfold hybridTempUpd
        have hthis : List.find? (fun r => r.memory_id == (t.memory_id, e).1) ts = none :=
          hfind_ts_t
        rw [hthis]
      have hupd_other : ∀ p : String × HybridEntry, ¬ p.1 = t.memory_id →
          hybridTempUpd ts p = hybridTempUpd (t :: ts) p := by
        intro p hp
        unfold hybridTempUpd
        rw [List.find?_cons_of_neg _
          (by simp only [beq_iff_eq]; exact fun h => hp h.symm)]
      rw [List.foldl_cons]
      by_cases hany : d.any (fun p => p.1 == t.memory_id) = true
      · have hstep : hybridInsertTemp d t = d.map (fun p =>
            if p.1 = t.memory_id then (p.1, { p.2 with temporal_score := t.relevance })
            else p) := by
          unfold hybridInsertTemp
          rw [if_pos hany]
        rw [hstep, ih _ (List.nodup_cons.mp hnodup).2]
        have hkeys : ∀ q : String × HybridEntry,
            ((if q.1 = t.memory_id then
              (q.1, { q.2 with temporal_score := t.relevance }) else q)).1 = q.1 := by
          intro q
          by_cases hq : q.1 = t.memory_id <;> simp [hq]
        congr 1
        · rw [List.map_map]
          refine List.map_congr_left ?_
          intro p _
          by_cases hp : p.1 = t.memory_id
          · simp only [Function.comp_apply, if_pos hp]
            have h1 : hybridTempUpd ts (p.1, { p.2 with temporal_score := t.relevance }) =
                (p.1, { p.2 with temporal_score := t.relevance }) := by
              rw [hp]; exact hupd_t_key _
            rw [h1]
            unfold hybridTempUpd
            rw [List.find?_cons_of_pos _ (by simp [hp])]
          · simp only [Function.comp_apply, if_neg hp]
            exact hupd_other p hp
        · have hfeq : ∀ u ∈ ts,
              ((d.map (fun p => if p.1 = t.memory_id then
                (p.1, { p.2 with temporal_score := t.relevance }) else p)).any
                (fun p => p.1 == u.memory_id)) =
              (d.any (fun p => p.1 == u.memory_id)) := by
            intro u _
            rw [List.any_map]
            have hcomp : ((fun p : String × HybridEntry => p.1 == u.memory_id) ∘
                (fun p : String × HybridEntry => if p.1 = t.memory_id then
                  (p.1, { p.2 with temporal_score := t.relevance }) else p)) =
                (fun p : String × HybridEntry => p.1 == u.memory_id) := by
              funext q
              simp only [Function.comp_apply]
              rw [hkeys q]
            rw [hcomp]
          have hfeq2 : ∀ u ∈ ts,
              (!(d.map (fun p => if p.1 = t.memory_id then
                (p.1, { p.2 with temporal_score := t.relevance }) else p)).any
                (fun p => p.1 == u.memory_id)) =
              (!(d.any (fun p => p.1 == u.memory_id))) := by
            intro u hu
            rw [hfeq u hu]
          rw [List.filter_congr hfeq2, List.filter_cons_of_neg (by simp [hany])]
      · have hanyf : d.any (fun p => p.1 == t.memory_id) = false :=
          Bool.eq_false_iff.mpr hany
        have hstep : hybridInsertTemp d t = d ++ [hybridNewEntry t] := by
          unfold hybridInsertTemp hybridNewEntry
          rw [if_neg (by simp [hanyf])]
        rw [hstep, ih _ (List.nodup_cons.mp hnodup).2]
        rw [List.map_append]
        have hmapd : d.map (hybridTempUpd ts) = d.map (hybridTempUpd (t :: ts)) := by
          refine List.map_congr_left ?_
          intro p hp
          refine hupd_other p ?_
          intro h
          rw [← Bool.not_eq_true] at hanyf
          exact hanyf (List.any_eq_true.mpr ⟨p, hp, by simpa using h⟩)
        have hsingle : [hybridNewEntry t].map (hybridTempUpd ts) = [hybridNewEntry t] := by
          simp only [List.map_cons, List.map_nil]
          rw [show hybridNewEntry t = (t.memory_id, (⟨t, 0, t.relevance⟩ : HybridEntry))
            from rfl, hupd_t_key]
        have hfilter : (ts.filter (fun u =>
            !((d ++ [hybridNewEntry t]).any (fun p => p.1 == u.memory_id)))) =
            ts.filter (fun u => !(d.any (fun p => p.1 == u.memory_id))) := by
          refine List.filter_congr ?_
          intro u hu
          rw [List.any_append]
          have hne : (t.memory_id == u.memory_id) = false := by
            rw [beq_eq_false_iff_ne]
            intro h
            exact htni (h ▸ List.mem_map.mpr ⟨u, hu, rfl⟩)
          have : ([hybridNewEntry t].any (fun p => p.1 == u.memory_id)) = false := by
            simp [hybridNewEntry, hne]
          rw [this, Bool.or_false]
        have hrhs : ((t :: ts).filter (fun u =>
            !(d.any (fun p => p.1 == u.memory_id)))).map hybridNewEntry =
            hybridNewEntry t ::
              (ts.filter (fun u => !(d.any (fun p => p.1 == u.memory_id)))).map
                hybridNewEntry := by
          rw [List.filter_cons_of_pos (by simp [hanyf])]
          rfl
        rw [hmapd, hsingle, hfilter, hrhs]
        simp

/-- In a result list with nodup ids, looking an id up finds exactly the
member that carries it. -/
theorem find?_self_of_nodup (l : List SearchResult)
    (hn : (l.map SearchResult.memory_id).Nodup) (r : SearchResult) (hr : r ∈ l) :
    l.find? (fun x => x.memory_id == r.memory_id) = some r := by
  induction l with
  | nil => cases hr
  | cons a l ih =>
      rw [List.map_cons] at hn
      rcases List.mem_cons.mp hr with rfl | hr2
      · rw [List.find?_cons_of_pos _ (by simp)]
      · have hna : a.memory_id ∉ l.map SearchResult.memory_id :=
          (List.nodup_cons.mp hn).1
        have hne : (a.memory_id == r.memory_id) = false := by
          rw [beq_eq_false_iff_ne]
          intro h
          exact hna (h ▸ List.mem_map.mpr ⟨r, hr2, rfl⟩)
        rw [List.find?_cons_of_neg _ (by simp [hne]), ih (List.nodup_cons.mp hn).2 hr2]

/-- Every entry of the combined dict carries its key as the memory_id of its
stored result, and the semantic and temporal scores the two sub-searches
assign to that id. -/
theorem hybrid_dict_entries (sem temp : List SearchResult)
    (hs : (sem.map SearchResult.memory_id).Nodup)
    (ht : (temp.map SearchResult.memory_id).Nodup) :
    ∀ p ∈ temp.foldl hybridInsertTemp (sem.foldl hybridInsertSem []),
      p.2.result.memory_id = p.1 ∧
        p.2.semantic_score = subSearchScore sem p.1 ∧
        p.2.temporal_score = subSearchScore temp p.1 := by
  intro p hp
  have hd1 : sem.foldl hybridInsertSem [] =
      sem.map (fun r => (r.memory_id, (⟨r, r.relevance, 0⟩ : HybridEntry))) := by
    have := hybridInsertSem_closed sem [] hs (fun r _ => rfl)
    simpa using this
  rw [hd1, hybridInsertTemp_closed temp _ ht] at hp
  rcases List.mem_append.mp hp with hp1 | hp2
  · rw [List.map_map] at hp1
    obtain ⟨r0, hr0, hr0eq⟩ := List.mem_map.mp hp1
    have hsemscore : subSearchScore sem r0.memory_id = r0.relevance := by
      unfold subSearchScore
      rw [find?_self_of_nodup sem hs r0 hr0]
      rfl
    simp only [Function.comp_apply] at hr0eq
    unfold hybridTempUpd at hr0eq
    cases hfind : temp.find? (fun r => r.memory_id == r0.memory_id) with
    | some u =>
        have : p = (r0.memory_id, (⟨r0, r0.relevance, u.relevance⟩ : HybridEntry)) := by
          rw [← hr0eq]
          have hfind2 : temp.find? (fun r =>
              r.memory_id == (r0.memory_id, (⟨r0, r0.relevance, 0⟩ : HybridEntry)).1) =
              some u := hfind
          rw [hfind2]
        rw [this]
        refine ⟨rfl, ?_, ?_⟩
        · simpa using hsemscore.symm
        · unfold subSearchScore
          rw [show temp.find? (fun r => r.memory_id ==
            (r0.memory_id, (⟨r0, r0.relevance, u.relevance⟩ : HybridEntry)).1) = some u
            from hfind]
          rfl
    | none =>
        have : p = (r0.memory_id, (⟨r0, r0.relevance, 0⟩ : HybridEntry)) := by
          rw [← hr0eq]
          have hfind2 : temp.find? (fun r =>
              r.memory_id == (r0.memory_id, (⟨r0, r0.relevance, 0⟩ : HybridEntry)).1) =
              none := hfind
          rw [hfind2]
        rw [this]
        refine ⟨rfl, ?_, ?_⟩
        · simpa using hsemscore.symm
        · unfold subSearchScore
          rw [show temp.find? (fun r => r.memory_id ==
            (r0.memory_id, (⟨r0, r0.relevance, 0⟩ : HybridEntry)).1) = none from hfind]
          rfl
  · obtain ⟨t, htf, hteq⟩ := List.mem_map.mp hp2
    have htmem : t ∈ temp := List.mem_of_mem_filter htf
    have htcond := List.of_mem_filter htf
    have hkeys : (sem.map (fun r =>
        (r.memory_id, (⟨r, r.relevance, 0⟩ : HybridEntry)))).map Prod.fst =
        sem.map SearchResult.memory_id := by
      rw [List.map_map]
      rfl
    have htnotsem : t.memory_id ∉ sem.map SearchResult.memory_id := by
      intro hmem
      obtain ⟨r0, hr0, hr0eq⟩ := List.mem_map.mp hmem
      have : ((sem.map (fun r =>
          (r.memory_id, (⟨r, r.relevance, 0⟩ : HybridEntry)))).any
          (fun p => p.1 == t.memory_id)) = true := by
        refine List.any_eq_true.mpr ?_
        exact ⟨(r0.memory_id, ⟨r0, r0.relevance, 0⟩),
          List.mem_map.mpr ⟨r0, hr0, rfl⟩, by simpa using hr0eq⟩
      rw [this] at htcond
      exact absurd htcond (by simp)
    rw [← hteq]
    unfold hybridNewEntry
    refine ⟨rfl, ?_, ?_⟩
    · unfold subSearchScore
      rw [List.find?_eq_none.mpr ?_]
      · rfl
      · intro x hx hbeq
        exact htnotsem ((by simpa using hbeq : x.memory_id = t.memory_id) ▸
          List.mem_map.mpr ⟨x, hx, rfl⟩)
    · unfold subSearchScore
      rw [find?_self_of_nodup temp ht t htmem]
      rfl

/-- C3: for every pair of sub-search result lists with unique ids per list,
every result of _hybrid_search carries relevance
0.7 * semantic-sub-search score + 0.3 * temporal-sub-search score for its
memory_id, with 0 for the side that did not return the id; the output is
sorted by this combined score descending and truncated to the limit. -/
theorem c3_hybrid_search_correct (sem temp : List SearchResult) (limit : ℕ)
    (hs : (sem.map SearchResult.memory_id).Nodup)
    (ht : (temp.map SearchResult.memory_id).Nodup) :
    let out := hybrid_search_combine sem temp limit
    (∀ r ∈ out, r.relevance =
        0.7 * subSearchScore sem r.memory_id + 0.3 * subSearchScore temp r.memory_id) ∧
      SortedDescBy (fun r => r.relevance) out ∧ out.length ≤ limit := by
  intro out
  refine ⟨?_, ?_, ?_⟩
  · intro r hr
    have hr2 : r ∈ sortDescBy (fun r => r.relevance)
        ((temp.foldl hybridInsertTemp (sem.foldl hybridInsertSem [])).map (fun p =>
          { p.2.result with
            relevance := p.2.semantic_score * 0.7 + p.2.temporal_score * 0.3 })) :=
      List.mem_of_mem_take hr
    rw [mem_sortDescBy] at hr2
    obtain ⟨p, hp, hpeq⟩ := List.mem_map.mp hr2
    obtain ⟨hid, hsem, htemp⟩ := hybrid_dict_entries sem temp hs ht p hp
    rw [← hpeq]
    show p.2.semantic_score * 0.7 + p.2.temporal_score * 0.3 =
      0.7 * subSearchScore sem p.2.result.memory_id +
        0.3 * subSearchScore temp p.2.result.memory_id
    rw [hid, hsem, htemp]
    ring
  · exact sortedDescBy_take _ _ _ (sorted_sortDescBy _ _)
  · exact List.length_take_le limit _

/-- C3 witness: the theorem applied to concrete one-element sub-search
results sharing the single id m. -/
theorem c3_witness :
    let sem : List SearchResult := [⟨"m", "c", 1, 0⟩]
    let temp : List SearchResult := [⟨"m", "c", 1, 0⟩, ⟨"n", "d", 1, 0⟩]
    ((sem.map SearchResult.memory_id).Nodup ∧
      (temp.map SearchResult.memory_id).Nodup) ∧
      (let out := hybrid_search_combine sem temp 5
       (∀ r ∈ out, r.relevance =
          0.7 * subSearchScore sem r.memory_id +
            0.3 * subSearchScore temp r.memory_id) ∧
        SortedDescBy (fun r => r.relevance) out ∧ out.length ≤ 5) :=
  ⟨⟨by decide, by decide⟩, c3_hybrid_search_correct _ _ 5 (by decide) (by decide)⟩

/-! ## C6: VectorStore.similarity_search (vector_store.py lines 86-112)

The FAISS IndexFlatIP call index.search(q, k) returns the k highest
inner-product matches in score-descending order; it is modelled as scoring
every stored vector against the query, sorting descending and taking k.
(The real library pads with index -1 and sentinel scores when fewer than k
vectors are stored; padded rows are dropped by the memory_map lookup and the
threshold test alike, so the take-k model is observationally the same for
this routine.)  The Python loop then skips scores below the threshold and
rows whose slot is missing from memory_map (or maps to a falsy id). -/

/-- Inner-product similarity of two vectors. -/
def dotProduct (u v : List ℚ) : ℚ := (List.zipWith (fun a b => a * b) u v).sum

/-- The FAISS IndexFlatIP search: score each stored vector by inner product
with the query, sort descending, return the best k with their slots. -/
def faiss_search (index : List (List ℚ)) (query : List ℚ) (k : ℕ) :
    List (ℚ × ℕ) :=
  (sortDescBy (fun p => p.1)
    (index.enum.map (fun p => (dotProduct query p.2, p.1)))).take k

/-- Shallow embedding of VectorStore.similarity_search: walk the FAISS
results in order, skip scores below the threshold, look the slot up in
memory_map, and append (memory_id, score) for the slots that resolve. -/
def similarity_search (index : List (List ℚ)) (memory_map : List (ℕ × String))
    (query : List ℚ) (k : ℕ) (threshold : ℚ) : List (String × ℚ) :=
  (faiss_search index query k).foldl (fun results p =>
    if p.1 < threshold then results
    else
      match memory_map.find? (fun q => q.1 == p.2) with
      | some q => results ++ [(q.2, p.1)]
      | none => results) []

theorem similarity_search_foldl_eq_filterMap (memory_map : List (ℕ × String))
    (threshold : ℚ) (L : List (ℚ × ℕ)) :
    ∀ acc : List (String × ℚ),
      L.foldl (fun results p =>
        if p.1 < threshold then results
        else
          match memory_map.find? (fun q => q.1 == p.2) with
          | some q => results ++ [(q.2, p.1)]
          | none => results) acc =
      acc ++ L.filterMap (fun p =>
        if p.1 < threshold then none
        else (memory_map.find? (fun q => q.1 == p.2)).map (fun q => (q.2, p.1))) := by
  induction L with
  | nil => intro acc; simp
  | cons p L ih =>
      intro acc
      rw [List.foldl_cons, List.filterMap_cons]
      by_cases hth : p.1 < threshold
      · rw [if_pos hth]
        simpa [hth] using ih acc
      · rw [if_neg hth]
        cases hfind : memory_map.find? (fun q => q.1 == p.2) with
        | some q =>
            rw [ih (acc ++ [(q.2, p.1)])]
            simp [hth, hfind]
        | none =>
            rw [ih acc]
            simp [hth, hfind]

theorem pairwise_filterMap_desc {α β : Type} (key1 : α → ℚ) (key2 : β → ℚ)
    (f : α → Option β) (hpres : ∀ a b, f a = some b → key2 b = key1 a)
    (l : List α) (h : List.Pairwise (fun a b => key1 b ≤ key1 a) l) :
    List.Pairwise (fun a b => key2 b ≤ key2 a) (l.filterMap f) := by
  induction l with
  | nil => simp
  | cons a l ih =>
      rcases h with _ | ⟨ha, hl⟩
      rw [List.filterMap_cons]
      cases hfa : f a with
      | none => exact ih hl
      | some b =>
          refine List.Pairwise.cons ?_ (ih hl)
          intro c hc
          obtain ⟨a2, ha2, hfa2⟩ := List.mem_filterMap.mp hc
          rw [hpres a b hfa, hpres a2 c hfa2]
          exact ha a2 ha2

/-- C6: similarity_search returns at most k results, every returned score is
at least the threshold, and the output is sorted non-increasingly by
score. -/
theorem c6_similarity_search_correct (index : List (List ℚ))
    (memory_map : List (ℕ × String)) (query : List ℚ) (k : ℕ) (threshold : ℚ) :
    (similarity_search index memory_map query k threshold).length ≤ k ∧
      (∀ p ∈ similarity_search index memory_map query k threshold,
        threshold ≤ p.2) ∧
      SortedDescBy (fun p => p.2)
        (similarity_search index memory_map query k threshold) := by
  have hout : similarity_search index memory_map query k threshold =
      (faiss_search index query k).filterMap (fun p =>
      if p.1 < threshold then none
      else (memory_map.find? (fun q => q.1 == p.2)).map (fun q => (q.2, p.1))) := by
    show (faiss_search index query k).foldl _ [] = _
    rw [similarity_search_foldl_eq_filterMap]
    simp
  refine ⟨?_, ?_, ?_⟩
  · rw [hout]
    calc ((faiss_search index query k).filterMap _).length
        ≤ (faiss_search index query k).length := List.length_filterMap_le _ _
      _ ≤ k := List.length_take_le k _
  · intro p hp
    rw [hout] at hp
    obtain ⟨p0, hp0, hp0eq⟩ := List.mem_filterMap.mp hp
    by_cases hth : p0.1 < threshold
    · rw [if_pos hth] at hp0eq
      cases hp0eq
    · rw [if_neg hth] at hp0eq
      cases hfind : memory_map.find? (fun q => q.1 == p0.2) with
      | none => rw [hfind] at hp0eq; cases hp0eq
      | some q =>
          rw [hfind] at hp0eq
          have : p = (q.2, p0.1) := by simpa using hp0eq.symm
          rw [this]
          exact not_lt.mp hth
  · rw [hout]
    refine pairwise_filterMap_desc (fun p : ℚ × ℕ => p.1)
      (fun p : String × ℚ => p.2) _ ?_ _ ?_
    · intro a b hab
      by_cases hth : a.1 < threshold
      · rw [if_pos hth] at hab
        cases hab
      · rw [if_neg hth] at hab
        cases hfind : memory_map.find? (fun q => q.1 == a.2) with
        | none => rw [hfind] at hab; cases hab
        | some q =>
            rw [hfind] at hab
            have : b = (q.2, a.1) := by simpa using hab.symm
            rw [this]
    · exact sortedDescBy_take _ _ _ (sorted_sortDescBy _ _)

/-! ## C7: MemoryRetrieval._get_memory_with_context_boost (retrieval.py lines
300-357)

The context dict carries optional emotional_state, topics, timeframe and
platform fields; a missing or empty value is falsy in the Python truth
tests.  The boost starts at 1.0, each matching condition ADDS ITS INCREMENT
TO THE MULTIPLIER, and the final relevance is base_score times the
multiplier - not base_score plus the increments. -/

/-- The context argument of contextual search. -/
structure SearchContext where
  emotional_state : Option String
  topics : Option (List String)
  timeframe : Option String
  platform : Option String
deriving DecidableEq

/-- The emotional-context test of the boost: the context field is truthy and
equals the memory label. -/
def emotionalMatch (m : Memory) (ctx : SearchContext) : Bool :=
  match ctx.emotional_state with
  | some s => !(s == "") && (m.emotional_context == s)
  | none => false

/-- The platform test of the boost. -/
def platformMatch (m : Memory) (ctx : SearchContext) : Bool :=
  match ctx.platform with
  | some s => !(s == "") && (m.platform == s)
  | none => false

/-- Shallow embedding of the relevance computation of
_get_memory_with_context_boost for a hit with the given base similarity
score: boost = 1.0, plus 0.2 on an emotional match, plus 0.1 on a platform
match, plus 0.15 when the timeframe is recent and the integer age in days is
below 7, or else plus 0.1 when the timeframe is month and the age is below
30; the result is base_score * boost. -/
def get_memory_with_context_boost_relevance (m : Memory) (ctx : SearchContext)
    (now : ℚ) (base_score : ℚ) : ℚ :=
  let boost0 : ℚ := 1.0
  let boost1 := if emotionalMatch m ctx then boost0 + 0.2 else boost0
  let boost2 := if platformMatch m ctx then boost1 + 0.1 else boost1
  let boost3 :=
    match ctx.timeframe with
    | some tf =>
        if !(tf == "") then
          let memory_age : ℤ := ⌊now - m.created_at⌋
          if tf = "recent" ∧ memory_age < 7 then boost2 + 0.15
          else if tf = "month" ∧ memory_age < 30 then boost2 + 0.1
          else boost2
        else boost2
    | none => boost2
  base_score * boost3

/-- The timeframe increment of the boost multiplier, as a standalone value. -/
def timeframeBoost (m : Memory) (ctx : SearchContext) (now : ℚ) : ℚ :=
  match ctx.timeframe with
  | some tf =>
      if !(tf == "") then
        if tf = "recent" ∧ ⌊now - m.created_at⌋ < 7 then 0.15
        else if tf = "month" ∧ ⌊now - m.created_at⌋ < 30 then 0.1
        else 0
      else 0
  | none => 0

/-- C7 counterexample: the claim says the final relevance is the base score
PLUS the boosts.  For a base score of 1/2 and an emotional match only, the
code returns 1/2 * 1.2 = 3/5, while the claim predicts 1/2 + 0.2 = 7/10, so
the claim is false. -/
theorem c7_counterexample :
    let m : Memory := ⟨"m", "general", "txt", 1, "happy", [], "default", "active", 0⟩
    let ctx : SearchContext := ⟨some "happy", none, none, none⟩
    get_memory_with_context_boost_relevance m ctx 0 (1/2) = 3/5 ∧
      (3/5 : ℚ) ≠ 1/2 + 0.2 := by
  refine ⟨?_, by norm_num⟩
  have hne : ¬ ("happy" : String) = "" := by decide
  norm_num [get_memory_with_context_boost_relevance, emotionalMatch, platformMatch, hne]

/-- C7 (amended): the relevance of a hit equals the base similarity score
MULTIPLIED by 1 plus the applicable boost increments: 0.2 for an emotional
match, 0.1 for a platform match, and 0.15 (timeframe recent, age under 7
days) or else 0.1 (timeframe month, age under 30 days). -/
theorem c7_context_boost_multiplicative (m : Memory) (ctx : SearchContext)
    (now base_score : ℚ) :
    get_memory_with_context_boost_relevance m ctx now base_score =
      base_score * (1 + (if emotionalMatch m ctx then (0.2 : ℚ) else 0)
        + (if platformMatch m ctx then (0.1 : ℚ) else 0)
        + timeframeBoost m ctx now) := by
  unfold get_memory_with_context_boost_relevance timeframeBoost
  cases htf : ctx.timeframe with
  | none =>
      by_cases h1 : emotionalMatch m ctx <;> by_cases h2 : platformMatch m ctx <;>
        simp [h1, h2, -mul_eq_mul_left_iff] <;> ring
  | some tf =>
      by_cases he : (tf == "") = true
      · by_cases h1 : emotionalMatch m ctx <;> by_cases h2 : platformMatch m ctx <;>
          simp [h1, h2, he, -mul_eq_mul_left_iff] <;> ring
      · have he2 : (!(tf == "")) = true := by simp [he]
        by_cases hr : tf = "recent" ∧ ⌊now - m.created_at⌋ < 7
        · by_cases h1 : emotionalMatch m ctx <;> by_cases h2 : platformMatch m ctx <;>
            simp [h1, h2, he2, hr, -mul_eq_mul_left_iff] <;> ring
        · by_cases hm : tf = "month" ∧ ⌊now - m.created_at⌋ < 30
          · by_cases h1 : emotionalMatch m ctx <;> by_cases h2 : platformMatch m ctx <;>
              simp [h1, h2, he2, hr, hm, -mul_eq_mul_left_iff] <;> ring
          · by_cases h1 : emotionalMatch m ctx <;> by_cases h2 : platformMatch m ctx <;>
              simp [h1, h2, he2, hr, hm, -mul_eq_mul_left_iff] <;> ring

/-! ## C8: EmbeddingManager.get_embedding and preprocess_text
(memory/utils/embedding.py lines 25-59 and 71-82)

get_embedding consults its text-keyed cache first and otherwise calls the
provider ON THE RAW TEXT: preprocess_text exists as a helper but is never
invoked, by get_embedding or anywhere else in the repository.  The provider
call and the tiktoken encoder are abstracted as function parameters; rate
limiting and retry affect timing only, not the returned value. -/

/-- Python str.strip: drop whitespace from both ends. -/
def pyStrip (l : List Char) : List Char :=
  ((l.dropWhile Char.isWhitespace).reverse.dropWhile Char.isWhitespace).reverse

/-- Python text.replace of the single-character newline pattern by a space. -/
def replaceNewlines (l : List Char) : List Char :=
  l.map (fun c => if c == '\n' then ' ' else c)

/-- Shallow embedding of preprocess_text, parametric in the tiktoken encode
and decode functions: truncate to the token budget when over it, then
replace newlines with spaces and strip. -/
def preprocess_text (encode : String → List ℕ) (decode : List ℕ → String)
    (text : String) (max_length : ℕ) : String :=
  let tokens := encode text
  let text2 := if max_length < tokens.length then decode (tokens.take max_length)
               else text
  String.mk (pyStrip (replaceNewlines text2.data))

/-- Shallow embedding of get_embedding as state passing over the cache, on
the path where the provider call succeeds: return the cached vector for a
text seen before, otherwise call the provider on the RAW text, cache the
vector under the raw text and return it. -/
def get_embedding (provider : String → List ℚ)
    (cache : List (String × List ℚ)) (text : String) :
    List ℚ × List (String × List ℚ) :=
  match cache.find? (fun p => p.1 == text) with
  | some p => (p.2, cache)
  | none =>
      let embedding := provider text
      (embedding, cache ++ [(text, embedding)])

/-- Claim version of get_embedding, following the spec words: on a cache
miss the text is preprocessed (newlines stripped, token budget applied)
before the provider is called.  Used only to exhibit the divergence from the
source. -/
def get_embedding_claim (encode : String → List ℕ) (decode : List ℕ → String)
    (provider : String → List ℚ) (cache : List (String × List ℚ))
    (text : String) : List ℚ × List (String × List ℚ) :=
  match cache.find? (fun p => p.1 == text) with
  | some p => (p.2, cache)
  | none =>
      let embedding := provider (preprocess_text encode decode text 8000)
      (embedding, cache ++ [(text, embedding)])

/-- C8 counterexample: with a provider that distinguishes the raw text from
its preprocessed form, get_embedding on the two-line text returns the vector
of the RAW text, not the vector of the preprocessed text the claim
prescribes: the source never preprocesses. -/
theorem c8_counterexample :
    let provider : String → List ℚ := fun s => if s = "a\nb" then [1] else [0]
    let enc : String → List ℕ := fun _ => []
    let dec : List ℕ → String := fun _ => ""
    preprocess_text enc dec "a\nb" 8000 = "a b" ∧
      (get_embedding provider [] "a\nb").1 = [1] ∧
      (get_embedding_claim enc dec provider [] "a\nb").1 = [0] ∧
      (get_embedding provider [] "a\nb").1 ≠
        (get_embedding_claim enc dec provider [] "a\nb").1 := by
  refine ⟨by decide, by decide, by decide, by decide⟩

theorem find?_append_none {α : Type} (p : α → Bool) (l1 l2 : List α)
    (h : l1.find? p = none) : (l1 ++ l2).find? p = l2.find? p := by
  induction l1 with
  | nil => rfl
  | cons a l ih =>
      cases hpa : p a with
      | true =>
          rw [List.find?_cons_of_pos _ hpa] at h
          cases h
      | false =>
          rw [List.find?_cons_of_neg _ (by simp [hpa])] at h
          rw [List.cons_append, List.find?_cons_of_neg _ (by simp [hpa])]
          exact ih h

/-- C8 (amended): get_embedding returns the cached vector when the exact
text was embedded before, independent of the provider (no provider call is
observable); otherwise it calls the provider on the RAW text - applying no
preprocessing - caches the vector under the raw text and returns it; and two
successive calls with the same text return the same vector. -/
theorem c8_get_embedding_cache_behavior (provider g : String → List ℚ)
    (cache : List (String × List ℚ)) (text : String) :
    (∀ p, cache.find? (fun q => q.1 == text) = some p →
      get_embedding provider cache text = (p.2, cache) ∧
        get_embedding g cache text = (p.2, cache)) ∧
      (cache.find? (fun q => q.1 == text) = none →
        get_embedding provider cache text =
          (provider text, cache ++ [(text, provider text)])) ∧
      ((get_embedding provider ((get_embedding provider cache text).2) text).1 =
        (get_embedding provider cache text).1) := by
  refine ⟨?_, ?_, ?_⟩
  · intro p hp
    constructor <;> (unfold get_embedding; rw [hp])
  · intro hnone
    unfold get_embedding
    rw [hnone]
  · cases hfind : cache.find? (fun q => q.1 == text) with
    | some p =>
        unfold get_embedding
        rw [hfind]
        simp only
        rw [hfind]
    | none =>
        unfold get_embedding
        rw [hfind]
        simp only
        rw [find?_append_none _ _ _ hfind]
        rw [List.find?_cons_of_pos _ (by simp)]

/-- C8 witness: the amended theorem applied to a concrete cache hit, a
concrete cache miss, and the repeat-call fact. -/
theorem c8_witness :
    (get_embedding (fun _ => [5]) [("t", [2])] "t" = ([2], [("t", [2])]) ∧
        get_embedding (fun _ => [7]) [("t", [2])] "t" = ([2], [("t", [2])])) ∧
      get_embedding (fun _ => [5]) [] "u" = ([5], [("u", [5])]) ∧
      ((get_embedding (fun _ => [5]) ((get_embedding (fun _ => [5]) [] "u").2) "u").1 =
        (get_embedding (fun _ => [5]) [] "u").1) :=
  ⟨(c8_get_embedding_cache_behavior (fun _ => [5]) (fun _ => [7]) [("t", [2])] "t").1
      ("t", [2]) (by decide),
    (c8_get_embedding_cache_behavior (fun _ => [5]) (fun _ => [7]) [] "u").2.1 (by decide),
    (c8_get_embedding_cache_behavior (fun _ => [5]) (fun _ => [7]) [] "u").2.2⟩

/-! ## C10: MemoryRetrieval.search dispatch (retrieval.py lines 32-71)

The four strategy coroutines close over network and store state; they are
abstracted as functions from the search arguments to a result value.  The
dispatch replaces any unknown strategy string by hybrid before indexing the
strategy table. -/

/-- The retrieval_strategies dict built in the constructor. -/
def retrieval_strategies {α β : Type} (semanticF temporalF hybridF contextualF : α → β) :
    List (String × (α → β)) :=
  [("semantic", semanticF), ("temporal", temporalF), ("hybrid", hybridF),
    ("contextual", contextualF)]

/-- Shallow embedding of search: replace a strategy string that is not a key
of retrieval_strategies by hybrid, then look the strategy up and apply it to
the arguments. -/
def search {α β : Type} (semanticF temporalF hybridF contextualF : α → β)
    (strategy : String) (args : α) : Option β :=
  let strategies := retrieval_strategies semanticF temporalF hybridF contextualF
  let strategy2 := if strategies.any (fun p => p.1 == strategy) then strategy
                   else "hybrid"
  (strategies.find? (fun p => p.1 == strategy2)).map (fun p => p.2 args)

/-- C10: for every strategy string outside the four known ones, search
silently substitutes hybrid: its result equals the result of search with the
hybrid strategy on the same arguments, and is the hybrid sub-search applied
to the arguments (no error value). -/
theorem c10_unknown_strategy_is_hybrid {α β : Type}
    (sf tf hf cf : α → β) (strategy : String) (args : α)
    (h : strategy ∉ (["semantic", "temporal", "hybrid", "contextual"] : List String)) :
    search sf tf hf cf strategy args = search sf tf hf cf "hybrid" args ∧
      search sf tf hf cf strategy args = some (hf args) := by
  have h1 : ¬ "semantic" = strategy := fun he => h (by simp [he.symm])
  have h2 : ¬ "temporal" = strategy := fun he => h (by simp [he.symm])
  have h3 : ¬ "hybrid" = strategy := fun he => h (by simp [he.symm])
  have h4 : ¬ "contextual" = strategy := fun he => h (by simp [he.symm])
  have hany : (retrieval_strategies sf tf hf cf).any (fun p => p.1 == strategy) = false := by
    simp [retrieval_strategies, h1, h2, h3, h4]
  have hres : search sf tf hf cf strategy args = some (hf args) := by
    simp only [search]
    rw [hany]
    simp [retrieval_strategies]
  have hhyb : search sf tf hf cf "hybrid" args = some (hf args) := by
    simp only [search]
    simp [retrieval_strategies]
  exact ⟨hres.trans hhyb.symm, hres⟩

/-- C10 witness: the theorem applied to the concrete unknown strategy
string experimental over concrete strategy functions on naturals. -/
theorem c10_witness :
    ("experimental" ∉ (["semantic", "temporal", "hybrid", "contextual"] : List String)) ∧
      (search (fun n : ℕ => n + 1) (fun n => n + 2) (fun n => n + 3) (fun n => n + 4)
          "experimental" 0 =
        search (fun n : ℕ => n + 1) (fun n => n + 2) (fun n => n + 3) (fun n => n + 4)
          "hybrid" 0 ∧
       search (fun n : ℕ => n + 1) (fun n => n + 2) (fun n => n + 3) (fun n => n + 4)
          "experimental" 0 = some 3) :=
  ⟨by decide, c10_unknown_strategy_is_hybrid _ _ _ _ "experimental" 0 (by decide)⟩

/-! ## C9: MemoryProcessor.process_new_memory content compression
(memory_processor.py lines 610-628, memory/utils/__init__.py lines 287-346)

The compression routine compress_memory_content is an ordinary synchronous
function, yet process_new_memory calls
await compress_memory_content(content_str): awaiting a plain string raises
TypeError at runtime, the surrounding try/except logs and swallows it, and
the ORIGINAL text is stored unchanged.  Both the compression algorithm (the
intent, matching the spec) and the actual stored-content path (with the
failed await) are embedded below. -/

/-- Python str.split over a character predicate, keeping empty pieces (the
str.split(sep) behaviour). -/
def pySplitPred (p : Char → Bool) : List Char → List (List Char)
  | [] => [[]]
  | c :: cs =>
      match pySplitPred p cs with
      | [] => if p c then [[], []] else [[c]]
      | h :: t => if p c then [] :: h :: t else (c :: h) :: t

/-- Python content.split(sep) for a one-character separator. -/
def pySplitChar (sep : Char) (l : List Char) : List (List Char) :=
  pySplitPred (fun c => c == sep) l

/-- Python str.split() with no argument: split on whitespace and drop the
empty pieces. -/
def pyWhitespaceSplit (l : List Char) : List (List Char) :=
  (pySplitPred Char.isWhitespace l).filter (fun w => !w.isEmpty)

/-- Python str.lower, per character. -/
def toLowerList (l : List Char) : List Char := l.map Char.toLower

/-- A regex word character: letter, digit or underscore. -/
def isWordChar (c : Char) : Bool := c.isAlphanum || c == '_'

/-- The cue words of the importance regex in _calculate_sentence_importance. -/
def cueWords : List (List Char) :=
  ["important".data, "key".data, "significant".data, "critical".data,
    "essential".data]

/-- The word-boundary regex test of _calculate_sentence_importance: the
lowercased sentence contains a cue word delimited by non-word characters. -/
def containsCueWord (l : List Char) : Bool :=
  ((pySplitPred (fun c => !isWordChar c) l).filter (fun w => !w.isEmpty)).any
    (fun w => cueWords.contains w)

/-- Shallow embedding of _calculate_sentence_importance (utils/__init__.py
lines 322-346): mean inverse term frequency of the distinct lowercased words
of the sentence over all sentences, times 1.2 when the sentence contains a
digit, times 1.1 when it contains a cue word. -/
def calculate_sentence_importance (sentence : List Char)
    (all_sentences : List (List Char)) : ℚ :=
  let words := (pyWhitespaceSplit (toLowerList sentence)).dedup
  let allWords := (all_sentences.map (fun s => pyWhitespaceSplit (toLowerList s))).flatten
  let score : ℚ :=
    if words.isEmpty then 0
    else ((words.map (fun w =>
      if 0 < allWords.count w then (1 : ℚ) / (allWords.count w : ℚ) else 0)).sum) /
      (words.length : ℚ)
  let score2 := if sentence.any Char.isDigit then score * 1.2 else score
  if containsCueWord (toLowerList sentence) then score2 * 1.1 else score2

/-- The greedy retention loop of compress_memory_content: keep the sentences
in score order until one would push the length budget over, then stop (the
Python loop breaks, it does not skip). -/
def greedyTake : List (List Char × ℚ) → ℕ → ℕ → List (List Char)
  | [], _, _ => []
  | (s, _) :: rest, max_length, current_length =>
      if max_length < current_length + s.length + 2 then []
      else s :: greedyTake rest max_length (current_length + s.length + 2)

/-- Shallow embedding of compress_memory_content (utils/__init__.py lines
287-320): return short content unchanged; otherwise split into stripped
nonempty sentences at periods, score them, sort by score descending, keep
greedily within the budget, and join with a period-space separator plus a
trailing ellipsis when anything was kept. -/
def compress_memory_content (content : String) (max_length : ℕ) : String :=
  if content.data.length ≤ max_length then content
  else
    let sentences := ((pySplitChar '.' content.data).map pyStrip).filter
      (fun s => !s.isEmpty)
    if sentences.isEmpty then String.mk (content.data.take max_length)
    else
      let scored_sentences := sentences.map (fun s =>
        (s, calculate_sentence_importance s sentences))
      let sorted_sentences := sortDescBy (fun p => p.2) scored_sentences
      let compressed := greedyTake sorted_sentences max_length 0
      String.mk (List.intercalate ". ".data compressed) ++
        (if compressed.isEmpty then "" else "...")

/-- Awaiting a value that is not a coroutine raises TypeError in Python,
whatever the value is; compress_memory_content returns a plain str. -/
def py_await_str (_s : String) : Except String String :=
  Except.error "TypeError: object str cannot be used in await expression"

/-- Shallow embedding of the content path of process_new_memory
(memory_processor.py lines 620-628): text over 1000 characters enters the
try block, the await of the synchronous compress_memory_content raises, the
except branch logs and falls back to the original text, so the stored
content is always the input unchanged. -/
def process_new_memory_stored_content (content_str : String) : String :=
  if 1000 < content_str.data.length then
    match py_await_str (compress_memory_content content_str 1000) with
    | Except.ok compressed => compressed
    | Except.error _ => content_str
  else content_str

/-- The intended content path, as the spec describes it: compress the text
when its serialized form exceeds 1000 characters. -/
def process_new_memory_intended_content (content_str : String) : String :=
  if 1000 < content_str.data.length then compress_memory_content content_str 1000
  else content_str

theorem pySplitPred_no_match (p : Char → Bool) (l : List Char)
    (h : ∀ c ∈ l, p c = false) : pySplitPred p l = [l] := by
  induction l with
  | nil => rfl
  | cons c cs ih =>
      rw [pySplitPred, ih (fun x hx => h x (List.mem_cons_of_mem c hx)),
        h c (List.mem_cons_self c cs)]
      simp

theorem dropWhile_eq_self_of_all (p : Char → Bool) (l : List Char)
    (h : ∀ c ∈ l, p c = false) : l.dropWhile p = l := by
  cases l with
  | nil => rfl
  | cons a l =>
      rw [List.dropWhile_cons, h a (List.mem_cons_self a l)]
      simp

theorem pyStrip_of_no_ws (l : List Char)
    (h : ∀ c ∈ l, c.isWhitespace = false) : pyStrip l = l := by
  unfold pyStrip
  rw [dropWhile_eq_self_of_all _ _ h,
    dropWhile_eq_self_of_all _ _ (fun c hc => h c (List.mem_reverse.mp hc)),
    List.reverse_reverse]

set_option maxRecDepth 8192 in
/-- C9: the compression the claim describes is dead code.  For an input of
1001 identical characters, process_new_memory stores the input unchanged
(1001 characters, over the 1000-character budget the claim asserts), because
the await of the synchronous compress_memory_content raises TypeError and
the except branch restores the original text; the compression itself,
had it been reached as intended, would return a within-budget string. -/
theorem c9_compression_dead_code :
    process_new_memory_stored_content (String.mk (List.replicate 1001 'a')) =
        String.mk (List.replicate 1001 'a') ∧
      1000 < (process_new_memory_stored_content
        (String.mk (List.replicate 1001 'a'))).data.length ∧
      compress_memory_content (String.mk (List.replicate 1001 'a')) 1000 = "" ∧
      process_new_memory_intended_content (String.mk (List.replicate 1001 'a')) = "" := by
  set input := String.mk (List.replicate 1001 'a')
  have hdata : input.data = List.replicate 1001 'a' := rfl
  have hlen : input.data.length = 1001 := by rw [hdata, List.length_replicate]
  have hmem : ∀ c ∈ input.data, c = 'a' := by
    intro c hc
    rw [hdata] at hc
    exact (List.eq_of_mem_replicate hc)
  have hstored : process_new_memory_stored_content input = input := by
    unfold process_new_memory_stored_content
    rw [if_pos (by rw [hlen]; omega)]
    rfl
  have hcomp : compress_memory_content input 1000 = "" := by
    unfold compress_memory_content
    rw [if_neg (by rw [hlen]; omega)]
    have hsplit : pySplitChar '.' input.data = [input.data] := by
      refine pySplitPred_no_match _ _ ?_
      intro c hc
      rw [hmem c hc]
      decide
    rw [hsplit]
    have hstrip : pyStrip input.data = input.data := by
      refine pyStrip_of_no_ws _ ?_
      intro c hc
      rw [hmem c hc]
      decide
    rw [List.map_cons, List.map_nil, hstrip]
    have hne : input.data.isEmpty = false := by
      rw [List.isEmpty_eq_false_iff_exists_mem]
      exact ⟨'a', by rw [hdata]; exact List.mem_replicate.mpr ⟨by omega, rfl⟩⟩
    have hpos : ((fun s : List Char => !s.isEmpty) input.data) = true := by
      show (!input.data.isEmpty) = true
      rw [hne]
      rfl
    rw [@List.filter_cons_of_pos (List Char) (fun s => !s.isEmpty) input.data [] hpos,
      List.filter_nil]
    dsimp only
    rw [if_neg (fun h => Bool.noConfusion h)]
    simp only [List.map_cons, List.map_nil]
    have hsorted : sortDescBy (fun p : List Char × ℚ => p.2)
        [(List.replicate 1001 'a',
          calculate_sentence_importance (List.replicate 1001 'a')
            [List.replicate 1001 'a'])] =
        [(List.replicate 1001 'a',
          calculate_sentence_importance (List.replicate 1001 'a')
            [List.replicate 1001 'a'])] := rfl
    simp only [hsorted]
    have hgreedy : greedyTake
        [(List.replicate 1001 'a',
          calculate_sentence_importance (List.replicate 1001 'a')
            [List.replicate 1001 'a'])]
        1000 0 = [] := by
      rw [greedyTake]
      rw [if_pos (by rw [List.length_replicate]; omega)]
    simp only [hgreedy]
    decide
  refine ⟨hstored, ?_, hcomp, ?_⟩
  · rw [hstored, hlen]
    omega
  · unfold process_new_memory_intended_content
    rw [if_pos (by rw [hlen]; omega), hcomp]

end MemEngine
